import Mathlib

/-!
Verification of the GRESA / Concept-Simplifier study app
(`GRESA_CONSIMP_AI.py`) against its natural-language specification.

The Python source is shallowly embedded over `List Char`:

* `pyStrip`           — `str.strip()` (ASCII whitespace fragment);
* `clean`             — `re.sub(r'(\\text\x7b.*?\x7d|\\approx|\\[a-zA-Z]+|\$+)', '', s)`,
                        the markup-stripping pass of `display_gresa_response`;
* `splitChunks`       — `re.split(r"(Given:|Required:|Equation:|Solution:|Answer:)", s)`
                        with captured delimiters;
* `gresaAccum` / `parseGresa`
                      — the accumulation loop and the final section
                        dictionary of `display_gresa_response`;
* `is_valid_problem`, `is_valid_concept` — the two input validators;
* `ask_openai`        — the completion client, with the external service
                        modelled as a success-or-raise outcome;
* `add_to_history`    — the history ledger insertion.

Recursions that skip more than one character per step are written with a
`Nat` fuel argument initialised to the input length, so that every
definition is structural and evaluates inside the kernel; fuel-invariance
lemmas recover the natural unfolding equations.
-/

set_option maxHeartbeats 1000000

namespace Gresa

/-- ASCII whitespace as recognised by Python's `str.strip` / `str.split`
(space, tab, newline, carriage return, vertical tab, form feed). -/
def isPySpace (c : Char) : Bool :=
  c == ' ' || c == '\t' || c == '\n' || c == '\r' || c == '\x0b' || c == '\x0c'

/-- Python `str.strip()`: drop leading and trailing whitespace. -/
def pyStrip (s : List Char) : List Char :=
  ((s.dropWhile isPySpace).reverse.dropWhile isPySpace).reverse

/-- One ASCII letter, `[a-zA-Z]` of the markup regex. -/
def isAsciiLetter (c : Char) : Bool :=
  ('a' ≤ c && c ≤ 'z') || ('A' ≤ c && c ≤ 'Z')

/-- Lazy scan `.*?\x7d` after `\text\x7b`: consume up to the first `\x7d`;
a newline (which `.` does not match) or the end of input makes the
alternative fail. -/
def scanToBrace : List Char → Option (List Char)
  | [] => none
  | c :: cs => if c = '}' then some cs else if c = '\n' then none else scanToBrace cs

/-- First alternative of the markup regex: `\\text\x7b.*?\x7d`. -/
def matchTextMacro : List Char → Option (List Char)
  | '\\' :: 't' :: 'e' :: 'x' :: 't' :: '{' :: rest => scanToBrace rest
  | _ => none

/-- Second alternative: the literal `\\approx`. -/
def matchApprox : List Char → Option (List Char)
  | '\\' :: 'a' :: 'p' :: 'p' :: 'r' :: 'o' :: 'x' :: rest => some rest
  | _ => none

/-- Third alternative: `\\[a-zA-Z]+`, a backslash followed by a maximal
nonempty run of ASCII letters. -/
def matchCmd : List Char → Option (List Char)
  | '\\' :: c :: rest =>
    if isAsciiLetter c then some (rest.dropWhile isAsciiLetter) else none
  | _ => none

/-- Fourth alternative: `\$+`, a maximal nonempty run of dollar signs. -/
def matchDollars : List Char → Option (List Char)
  | '$' :: rest => some (rest.dropWhile (fun c => c == '$'))
  | _ => none

/-- One attempt of the markup regex at the current position, alternatives
tried in the source order. Returns the rest of the input after the match. -/
def cleanStep (s : List Char) : Option (List Char) :=
  match matchTextMacro s with
  | some r => some r
  | none =>
    match matchApprox s with
    | some r => some r
    | none =>
      match matchCmd s with
      | some r => some r
      | none => matchDollars s

/-- Fuelled body of `clean`: scan left to right, deleting every match of
the markup regex, exactly as `re.sub(..., '', s)` does (no rescan of the
produced text). One unit of fuel per step; each step consumes at least
one input character. -/
def cleanGo : Nat → List Char → List Char
  | 0, s => s
  | _ + 1, [] => []
  | fuel + 1, c :: cs =>
    match cleanStep (c :: cs) with
    | some rest => cleanGo fuel rest
    | none => c :: cleanGo fuel cs

/-- `re.sub(r'(\\text\x7b.*?\x7d|\\approx|\\[a-zA-Z]+|\$+)', '', s)`,
line 81 of the source. -/
def clean (s : List Char) : List Char := cleanGo s.length s

/-- The five GRESA section labels (the keys of `sections`). -/
inductive SecLabel where
  | given
  | required
  | equation
  | solution
  | answer
deriving DecidableEq, Fintype

/-- The label's literal text, with the trailing colon. -/
def labelStrL : SecLabel → List Char
  | .given => ['G', 'i', 'v', 'e', 'n', ':']
  | .required => ['R', 'e', 'q', 'u', 'i', 'r', 'e', 'd', ':']
  | .equation => ['E', 'q', 'u', 'a', 't', 'i', 'o', 'n', ':']
  | .solution => ['S', 'o', 'l', 'u', 't', 'i', 'o', 'n', ':']
  | .answer => ['A', 'n', 's', 'w', 'e', 'r', ':']

/-- The labels in the fixed display order of the `sections` dictionary. -/
def allLabels : List SecLabel :=
  [.given, .required, .equation, .solution, .answer]

/-- `startsWith` on character lists. -/
def listStarts : List Char → List Char → Bool
  | [], _ => true
  | _ :: _, [] => false
  | p :: ps, c :: cs => p == c && listStarts ps cs

/-- Does one of the five labels start here?  The alternatives of
`re.split(r"(Given:|Required:|Equation:|Solution:|Answer:)", ...)` in
source order (they start with five distinct letters, so at most one can
match). -/
def matchLabel (s : List Char) : Option (SecLabel × List Char) :=
  if listStarts (labelStrL .given) s then some (.given, s.drop 6)
  else if listStarts (labelStrL .required) s then some (.required, s.drop 9)
  else if listStarts (labelStrL .equation) s then some (.equation, s.drop 9)
  else if listStarts (labelStrL .solution) s then some (.solution, s.drop 9)
  else if listStarts (labelStrL .answer) s then some (.answer, s.drop 7)
  else none

/-- Fuelled body of the splitter: emit the fragment accumulated so far
(in reverse) at every label occurrence and at the end, keeping the label
itself as a part, exactly the split-with-capture of `re.split`. -/
def splitGo : Nat → List Char → List Char → List (List Char)
  | _, acc, [] => [acc.reverse]
  | 0, acc, s => [acc.reverse ++ s]
  | fuel + 1, acc, c :: cs =>
    match matchLabel (c :: cs) with
    | some (l, rest) => acc.reverse :: labelStrL l :: splitGo fuel [] rest
    | none => splitGo fuel (c :: acc) cs

/-- The splitter started with accumulator `acc` on input `s`. -/
def splitFrom (acc s : List Char) : List (List Char) := splitGo s.length acc s

/-- `re.split(r"(Given:|Required:|Equation:|Solution:|Answer:)", s)`,
line 82 of the source: fragments and labels, alternating, first and last
parts being (possibly empty) fragments. -/
def splitChunks (s : List Char) : List (List Char) := splitFrom [] s

/-- Is this part one of the five label strings?  The `part in sections`
test of the accumulation loop (line 86). -/
def classify (part : List Char) : Option SecLabel :=
  if part = labelStrL .given then some .given
  else if part = labelStrL .required then some .required
  else if part = labelStrL .equation then some .equation
  else if part = labelStrL .solution then some .solution
  else if part = labelStrL .answer then some .answer
  else none

/-- Update of the section dictionary at one key. -/
def setSec (d : SecLabel → Option (List Char)) (l : SecLabel) (v : List Char) :
    SecLabel → Option (List Char) :=
  fun l' => if l' = l then some v else d l'

/-- One iteration of the accumulation loop (lines 85-90): a label part
resets that label's accumulator to `""` and becomes the current section;
a body part, when a current section is active, appends its stripped text
plus a newline to the current accumulator.  (In the source the appended-to
key always exists — it was created when the label was seen — so the
`getD []` default is never used on reachable states.) -/
def stepPart (st : (SecLabel → Option (List Char)) × Option SecLabel)
    (part : List Char) : (SecLabel → Option (List Char)) × Option SecLabel :=
  match classify part with
  | some l => (setSec st.1 l [], some l)
  | none =>
    match st.2 with
    | none => st
    | some l => (setSec st.1 l (((st.1 l).getD []) ++ pyStrip part ++ ['\n']), some l)

/-- The accumulation loop over a list of parts. -/
def foldParts (st : (SecLabel → Option (List Char)) × Option SecLabel)
    (parts : List (List Char)) : (SecLabel → Option (List Char)) × Option SecLabel :=
  parts.foldl stepPart st

/-- The section dictionary `content_dict` built by `display_gresa_response`
from a raw response. -/
def gresaAccum (s : List Char) : SecLabel → Option (List Char) :=
  (foldParts (fun _ => none, none) (splitChunks (clean s))).1

/-- The final document: the display loop (lines 92-99) walks the five
labels in fixed order and shows a section exactly when its key is present
and its accumulated body is nonempty once stripped; the displayed body is
the stripped accumulator. -/
def finalize (d : SecLabel → Option (List Char)) : List (SecLabel × List Char) :=
  allLabels.filterMap (fun l =>
    match d l with
    | some v => if pyStrip v = [] then none else some (l, pyStrip v)
    | none => none)

/-- The GRESA sectionizer: the document `display_gresa_response` renders
from a raw model response (`parseGresa` of the specification). -/
def parseGresa (s : List Char) : List (SecLabel × List Char) :=
  finalize (gresaAccum s)

/-- Python's `\w` (word character) restricted to the characters that occur
in this program's inputs and unit list: ASCII alphanumerics, underscore,
and the two non-ASCII alphanumerics of the unit list (`Ω`, `²`); the
degree sign and the middle dot are not alphanumeric in Python. -/
def isWordChar (c : Char) : Bool :=
  isAsciiLetter c || ('0' ≤ c && c ≤ '9') || c == '_' || c == 'Ω' || c == '²'

/-- Word-ness of the character on one side of a position; out of the
string counts as not-a-word-character. -/
def wordOpt : Option Char → Bool
  | none => false
  | some c => isWordChar c

/-- A `\b` boundary between two adjacent positions: exactly one side is a
word character. -/
def boundaryAt (a b : Option Char) : Bool := wordOpt a != wordOpt b

/-- Does `re.search(rf'\b\x7bu\x7d\b', ...)` match at the current position?
`prev` is the character just before the position (none at the start). -/
def matchWordAt (u : List Char) (prev : Option Char) (t : List Char) : Bool :=
  boundaryAt prev u.head? && listStarts u t && boundaryAt u.getLast? ((t.drop u.length).head?)

/-- `re.search(rf'\b\x7bu\x7d\b', text)`: try the whole-word match at every
position. -/
def searchWord (u : List Char) : Option Char → List Char → Bool
  | prev, t =>
    matchWordAt u prev t ||
      match t with
      | [] => false
      | c :: ts => searchWord u (some c) ts

/-- The fixed whitelist of measurement units (line 139-142 of the source). -/
def unitsList : List (List Char) :=
  ["m", "cm", "mm", "km", "kg", "g", "s", "N", "J", "W", "A", "V", "Ω", "ohm",
   "Hz", "°C", "K", "mol", "Pa", "L", "m/s", "m/s²", "N·m", "J/kg"].map String.toList

/-- `re.search(r'\d+(\.\d+)?', text)` succeeds exactly when the text
contains a decimal digit (the optional fractional part never affects
existence of a match). -/
def has_number (t : List Char) : Bool := t.any Char.isDigit

/-- `any(re.search(rf'\b\x7bunit\x7d\b', text) for unit in units)`. -/
def has_unit (t : List Char) : Bool := unitsList.any (fun u => searchWord u none t)

/-- `is_valid_problem` (lines 124-148): strip, reject empty or short text,
then require a question mark together with a number or a whole-word unit. -/
def is_valid_problem (text : List Char) : Bool :=
  let t := pyStrip text
  if t = [] then false
  else if t.length < 15 then false
  else
    let has_question := t.contains '?'
    if has_question && (has_number t || has_unit t) then true else false

/-- The validator exactly as the specification words it: the trimmed text
is nonempty and at least 15 characters long, contains a literal question
mark, and contains a decimal-or-integer numeral token or a whole-word
match of one of the whitelisted unit tokens (stated as an explicit
decomposition of the text rather than as a scan). -/
def validateProblemSpec (text : List Char) : Prop :=
  let t := pyStrip text
  t ≠ [] ∧ 15 ≤ t.length ∧ '?' ∈ t ∧
    ((∃ c ∈ t, c.isDigit = true) ∨
      ∃ u ∈ unitsList, ∃ pre post, t = pre ++ u ++ post ∧
        boundaryAt pre.getLast? u.head? = true ∧
        boundaryAt u.getLast? post.head? = true)

/-- Python `str.split()` with no separator: maximal runs of non-whitespace
characters; `cur` is the current run, reversed. -/
def splitWsAux (cur : List Char) : List Char → List (List Char)
  | [] => if cur = [] then [] else [cur.reverse]
  | c :: cs =>
    if isPySpace c then
      if cur = [] then splitWsAux [] cs else cur.reverse :: splitWsAux [] cs
    else splitWsAux (c :: cur) cs

/-- Python `text.split()`. -/
def pySplit (s : List Char) : List (List Char) := splitWsAux [] s

/-- `is_valid_concept` (lines 150-159): between 1 and 10 whitespace-separated
tokens of the stripped text. -/
def is_valid_concept (text : List Char) : Bool :=
  let stripped := pyStrip text
  let word_count := (pySplit stripped).length
  if 1 ≤ word_count && word_count ≤ 10 then true else false

/-- What the external chat-completion call does from the caller's point of
view: either it produces a response text, or it raises some exception
(transport, authentication, timeout or service-side) carrying a message. -/
inductive ServiceOutcome where
  | success (text : List Char)
  | failure (message : List Char)

/-- The warning marker of the error string `f"⚠️ Error: \x7be\x7d"`. -/
def warnMark : List Char := "⚠️ Error: ".toList

/-- `ask_openai` (lines 36-48): the `try` block returns the response text
stripped; the `except` clause converts any raised exception into the
warning-marked message string.  Totality of this function is the
never-raises property of the claim. -/
def ask_openai : ServiceOutcome → List Char
  | .success t => pyStrip t
  | .failure e => warnMark ++ e

/-- One entry of the session history (lines 230-237). -/
structure HistoryEntry where
  timestamp : List Char
  mode : List Char
  input : List Char
  response : List Char
deriving DecidableEq

/-- `add_to_history` (lines 230-237): build the entry — input and response
stripped, timestamp captured at insertion time (modelled as the `now`
argument) — and `insert(0, entry)`. -/
def add_to_history (now mode input_text response : List Char)
    (history : List HistoryEntry) : List HistoryEntry :=
  { timestamp := now, mode := mode,
    input := pyStrip input_text, response := pyStrip response } :: history

/-- `show_history` walks the list front to back, so listing returns the
ledger as stored, newest first. -/
def listAll (history : List HistoryEntry) : List HistoryEntry := history

/-- The externally observable outcome of one button press: whether the
completion service was called, the resulting ledger, and whether the
validation warning was shown. -/
structure ModeStep where
  called_service : Bool
  history : List HistoryEntry
  warned : Bool
deriving DecidableEq

/-- The GRESA-mode button handler (lines 285-346), reduced to its service
call, ledger update and warning: an invalid problem only shows the
warning; a valid one calls the service and records the answer. -/
def gresa_mode_step (now : List Char) (svc : ServiceOutcome)
    (problem_text : List Char) (history : List HistoryEntry) : ModeStep :=
  if is_valid_problem problem_text then
    let answer := ask_openai svc
    { called_service := true,
      history := add_to_history now "GRESA".toList problem_text answer history,
      warned := false }
  else
    { called_service := false, history := history, warned := true }

/-- The Concept-Simplifier-mode button handler (lines 355-408), reduced the
same way. -/
def concept_mode_step (now : List Char) (svc : ServiceOutcome)
    (concept_text : List Char) (history : List HistoryEntry) : ModeStep :=
  if is_valid_concept concept_text then
    let response := ask_openai svc
    { called_service := true,
      history := add_to_history now "Concept Simplifier".toList concept_text response history,
      warned := false }
  else
    { called_service := false, history := history, warned := true }

/-! ### Lemmas about `pyStrip` -/

theorem eq_cons_of_headQ {l : List Char} {c : Char} (h : l.head? = some c) :
    ∃ r, l = c :: r := by
  cases l with
  | nil => simp at h
  | cons x xs =>
    simp only [List.head?_cons, Option.some.injEq] at h
    exact ⟨xs, by rw [h]⟩

theorem dropWhile_head_not {p : Char → Bool} {s : List Char} {c : Char} {r : List Char}
    (h : List.dropWhile p s = c :: r) : p c = false := by
  induction s with
  | nil => simp [List.dropWhile] at h
  | cons a as ih =>
    by_cases hp : p a = true
    · rw [List.dropWhile_cons_of_pos hp] at h
      exact ih h
    · rw [List.dropWhile_cons_of_neg hp] at h
      cases h
      simpa using hp

theorem pyStrip_headQ {s c} (h : (pyStrip s).head? = some c) : isPySpace c = false := by
  unfold pyStrip at h
  rw [List.head?_reverse] at h
  have hz : List.dropWhile isPySpace (s.dropWhile isPySpace).reverse ≠ [] := by
    intro h0
    rw [h0] at h
    simp at h
  obtain ⟨pre, hpre⟩ := List.dropWhile_suffix (l := (s.dropWhile isPySpace).reverse) isPySpace
  rw [← List.getLast?_append_of_ne_nil pre hz] at h
  rw [hpre, List.getLast?_reverse] at h
  obtain ⟨r', hr'⟩ := eq_cons_of_headQ h
  exact dropWhile_head_not hr'

theorem pyStrip_head_not {s c r} (h : pyStrip s = c :: r) : isPySpace c = false :=
  pyStrip_headQ (by rw [h]; rfl)

theorem pyStrip_getLast_not {s c} (h : (pyStrip s).getLast? = some c) :
    isPySpace c = false := by
  unfold pyStrip at h
  rw [List.getLast?_reverse] at h
  obtain ⟨r', hr'⟩ := eq_cons_of_headQ h
  exact dropWhile_head_not hr'

theorem pyStrip_nil : pyStrip [] = [] := rfl

/-- Any list whose first and last characters are not whitespace is fixed
by `pyStrip`. -/
theorem pyStrip_eq_self_of {t : List Char}
    (hh : ∀ c, t.head? = some c → isPySpace c = false)
    (hl : ∀ c, t.getLast? = some c → isPySpace c = false) : pyStrip t = t := by
  cases t with
  | nil => rfl
  | cons c r =>
    have hc : isPySpace c = false := hh c rfl
    have hlastQ : ∃ c', (c :: r).getLast? = some c' := by
      cases hg : (c :: r).getLast? with
      | none => simp at hg
      | some x => exact ⟨x, rfl⟩
    obtain ⟨c', hc'last⟩ := hlastQ
    have hc' : isPySpace c' = false := hl c' hc'last
    obtain ⟨w, hwrev⟩ := eq_cons_of_headQ (c := c')
      (l := (c :: r).reverse) (by rw [List.head?_reverse]; exact hc'last)
    unfold pyStrip
    rw [List.dropWhile_cons_of_neg (by simp [hc]), hwrev,
      List.dropWhile_cons_of_neg (by simp [hc']), ← hwrev, List.reverse_reverse]

theorem pyStrip_idem (s : List Char) : pyStrip (pyStrip s) = pyStrip s :=
  pyStrip_eq_self_of (fun _ h => pyStrip_headQ h) (fun _ h => pyStrip_getLast_not h)

theorem pyStrip_append_nl (s : List Char) : pyStrip (pyStrip s ++ ['\n']) = pyStrip s := by
  cases ht : pyStrip s with
  | nil => decide
  | cons c r =>
    have hc : isPySpace c = false := pyStrip_head_not ht
    have hc'ex : ∃ c', (c :: r).getLast? = some c' ∧ isPySpace c' = false := by
      cases hg : (c :: r).getLast? with
      | none => simp at hg
      | some x => exact ⟨x, rfl, pyStrip_getLast_not (s := s) (by rw [ht]; exact hg)⟩
    obtain ⟨c', hc'last, hc'⟩ := hc'ex
    obtain ⟨w, hwrev⟩ := eq_cons_of_headQ (c := c')
      (l := (c :: r).reverse) (by rw [List.head?_reverse]; exact hc'last)
    show pyStrip ((c :: r) ++ ['\n']) = c :: r
    unfold pyStrip
    have h1 : List.dropWhile isPySpace ((c :: r) ++ ['\n']) = (c :: r) ++ ['\n'] := by
      rw [List.cons_append]
      exact List.dropWhile_cons_of_neg (by simp [hc])
    rw [h1, List.reverse_append]
    show (List.dropWhile isPySpace ('\n' :: (c :: r).reverse)).reverse = c :: r
    rw [List.dropWhile_cons_of_pos (by decide), hwrev,
      List.dropWhile_cons_of_neg (by simp [hc']), ← hwrev, List.reverse_reverse]

theorem pyStrip_subset {c : Char} {s : List Char} (h : c ∈ pyStrip s) : c ∈ s := by
  unfold pyStrip at h
  rw [List.mem_reverse] at h
  have h2 := (List.dropWhile_sublist (l := (s.dropWhile isPySpace).reverse) isPySpace).subset h
  rw [List.mem_reverse] at h2
  exact (List.dropWhile_sublist (l := s) isPySpace).subset h2

/-! ### Lemmas about `clean` -/

theorem scanToBrace_lt : ∀ {s r : List Char}, scanToBrace s = some r → r.length < s.length := by
  intro s
  induction s with
  | nil => intro r h; simp [scanToBrace] at h
  | cons c cs ih =>
    intro r h
    unfold scanToBrace at h
    by_cases h1 : c = '}'
    · rw [if_pos h1] at h
      cases h
      simp
    · rw [if_neg h1] at h
      by_cases h2 : c = '\n'
      · rw [if_pos h2] at h
        cases h
      · rw [if_neg h2] at h
        exact Nat.lt_trans (ih h) (by simp)

theorem matchTextMacro_lt {s r : List Char} (h : matchTextMacro s = some r) :
    r.length < s.length := by
  unfold matchTextMacro at h
  split at h
  · have := scanToBrace_lt h
    simp only [List.length_cons]
    omega
  · exact absurd h (by simp)

theorem matchApprox_lt {s r : List Char} (h : matchApprox s = some r) :
    r.length < s.length := by
  unfold matchApprox at h
  split at h
  · cases h
    simp only [List.length_cons]
    omega
  · exact absurd h (by simp)

theorem matchCmd_lt {s r : List Char} (h : matchCmd s = some r) :
    r.length < s.length := by
  unfold matchCmd at h
  split at h
  · rename_i c2 rest2
    split at h
    · cases h
      have hle : (List.dropWhile isAsciiLetter rest2).length ≤ rest2.length :=
        List.Sublist.length_le (List.dropWhile_sublist isAsciiLetter)
      simp only [List.length_cons]
      omega
    · exact absurd h (by simp)
  · exact absurd h (by simp)

theorem matchDollars_lt {s r : List Char} (h : matchDollars s = some r) :
    r.length < s.length := by
  unfold matchDollars at h
  split at h
  · rename_i rest2
    cases h
    have hle : (List.dropWhile (fun c => c == '$') rest2).length ≤ rest2.length :=
      List.Sublist.length_le (List.dropWhile_sublist _)
    simp only [List.length_cons]
    omega
  · exact absurd h (by simp)

theorem cleanStep_lt {s r : List Char} (h : cleanStep s = some r) : r.length < s.length := by
  unfold cleanStep at h
  cases h1 : matchTextMacro s with
  | some x => rw [h1] at h; cases h; exact matchTextMacro_lt h1
  | none =>
    rw [h1] at h
    cases h2 : matchApprox s with
    | some x => rw [h2] at h; cases h; exact matchApprox_lt h2
    | none =>
      rw [h2] at h
      cases h3 : matchCmd s with
      | some x => rw [h3] at h; cases h; exact matchCmd_lt h3
      | none => rw [h3] at h; exact matchDollars_lt h

theorem cleanGo_eq : ∀ (fuel fuel' : Nat) (s : List Char),
    s.length ≤ fuel → s.length ≤ fuel' → cleanGo fuel s = cleanGo fuel' s := by
  intro fuel
  induction fuel with
  | zero =>
    intro fuel' s h h'
    have hs : s = [] := List.eq_nil_of_length_eq_zero (Nat.le_zero.mp h)
    subst hs
    cases fuel' <;> rfl
  | succ f ih =>
    intro fuel' s h h'
    cases s with
    | nil => cases fuel' <;> rfl
    | cons c cs =>
      cases fuel' with
      | zero => simp at h'
      | succ f' =>
        show cleanGo (f + 1) (c :: cs) = cleanGo (f' + 1) (c :: cs)
        simp only [cleanGo]
        cases hstep : cleanStep (c :: cs) with
        | some rest =>
          have hlt := cleanStep_lt hstep
          simp only [List.length_cons] at h h' hlt
          exact ih f' rest (by omega) (by omega)
        | none =>
          simp only [List.length_cons] at h h'
          rw [ih f' cs (by omega) (by omega)]

theorem clean_nil : clean [] = [] := rfl

theorem clean_cons (c : Char) (cs : List Char) :
    clean (c :: cs) =
      match cleanStep (c :: cs) with
      | some rest => clean rest
      | none => c :: clean cs := by
  show cleanGo (c :: cs).length (c :: cs) = _
  simp only [List.length_cons, cleanGo]
  cases hstep : cleanStep (c :: cs) with
  | some rest =>
    have hlt := cleanStep_lt hstep
    simp only [List.length_cons] at hlt
    exact cleanGo_eq cs.length rest.length rest (by omega) (by omega)
  | none => rfl

theorem matchTextMacro_none {c : Char} {cs : List Char} (h : c ≠ '\\') :
    matchTextMacro (c :: cs) = none := by
  unfold matchTextMacro
  split
  · next heq => rw [List.cons.injEq] at heq; exact absurd heq.1 h
  · rfl

theorem matchApprox_none {c : Char} {cs : List Char} (h : c ≠ '\\') :
    matchApprox (c :: cs) = none := by
  unfold matchApprox
  split
  · next heq => rw [List.cons.injEq] at heq; exact absurd heq.1 h
  · rfl

theorem matchCmd_none {c : Char} {cs : List Char} (h : c ≠ '\\') :
    matchCmd (c :: cs) = none := by
  unfold matchCmd
  split
  · next heq => rw [List.cons.injEq] at heq; exact absurd heq.1 h
  · rfl

theorem matchDollars_none {c : Char} {cs : List Char} (h : c ≠ '$') :
    matchDollars (c :: cs) = none := by
  unfold matchDollars
  split
  · next heq => rw [List.cons.injEq] at heq; exact absurd heq.1 h
  · rfl

theorem cleanStep_none_of {c : Char} {cs : List Char} (h1 : c ≠ '\\') (h2 : c ≠ '$') :
    cleanStep (c :: cs) = none := by
  unfold cleanStep
  rw [matchTextMacro_none h1, matchApprox_none h1, matchCmd_none h1, matchDollars_none h2]

theorem clean_eq_self {s : List Char} (h : ∀ c ∈ s, c ≠ '\\' ∧ c ≠ '$') :
    clean s = s := by
  induction s with
  | nil => rfl
  | cons c cs ih =>
    have hc := h c (by simp)
    simp only [clean_cons, cleanStep_none_of hc.1 hc.2]
    rw [ih (fun x hx => h x (by simp [hx]))]

theorem cleanStep_dollar (cs : List Char) : ∃ r, cleanStep ('$' :: cs) = some r := by
  unfold cleanStep
  rw [matchTextMacro_none (by decide), matchApprox_none (by decide),
    matchCmd_none (by decide)]
  exact ⟨_, rfl⟩

theorem clean_no_dollar (s : List Char) : '$' ∉ clean s := by
  have H : ∀ n (s : List Char), s.length ≤ n → '$' ∉ clean s := by
    intro n
    induction n with
    | zero =>
      intro s hs
      have hnil : s = [] := List.eq_nil_of_length_eq_zero (Nat.le_zero.mp hs)
      subst hnil
      simp [clean_nil]
    | succ n ih =>
      intro s hs
      cases s with
      | nil => simp [clean_nil]
      | cons c cs =>
        rw [clean_cons]
        simp only [List.length_cons] at hs
        cases hstep : cleanStep (c :: cs) with
        | some rest =>
          have hlt := cleanStep_lt hstep
          simp only [List.length_cons] at hlt
          exact ih rest (by omega)
        | none =>
          have hc : c ≠ '$' := by
            intro hc
            subst hc
            obtain ⟨r, hr⟩ := cleanStep_dollar cs
            rw [hr] at hstep
            cases hstep
          intro hmem
          rcases List.mem_cons.mp hmem with h1 | h2
          · exact hc h1.symm
          · exact ih cs (by omega) h2
  exact H s.length s (Nat.le_refl _)

/-! ### Lemmas about the splitter -/

theorem listStarts_iff : ∀ {p s : List Char}, listStarts p s = true ↔ p <+: s := by
  intro p
  induction p with
  | nil =>
    intro s
    constructor
    · intro _; exact ⟨s, rfl⟩
    · intro _; rfl
  | cons a ps ih =>
    intro s
    cases s with
    | nil =>
      constructor
      · intro h; simp [listStarts] at h
      · intro h
        obtain ⟨t, ht⟩ := h
        simp at ht
    | cons c cs =>
      simp only [listStarts, Bool.and_eq_true, beq_iff_eq]
      constructor
      · rintro ⟨rfl, h2⟩
        obtain ⟨t, ht⟩ := ih.mp h2
        exact ⟨t, by rw [List.cons_append, ht]⟩
      · rintro ⟨t, ht⟩
        rw [List.cons_append] at ht
        injection ht with h1 h2
        exact ⟨h1, ih.mpr ⟨t, h2⟩⟩

theorem prefix_drop_eq {p s : List Char} (h : p <+: s) : s = p ++ s.drop p.length := by
  obtain ⟨t, ht⟩ := h
  rw [← ht, List.drop_left]

theorem matchLabel_inv {s : List Char} {l : SecLabel} {rest : List Char}
    (h : matchLabel s = some (l, rest)) : s = labelStrL l ++ rest := by
  unfold matchLabel at h
  split_ifs at h with h1 h2 h3 h4 h5
  · cases h; exact prefix_drop_eq (listStarts_iff.mp h1)
  · cases h; exact prefix_drop_eq (listStarts_iff.mp h2)
  · cases h; exact prefix_drop_eq (listStarts_iff.mp h3)
  · cases h; exact prefix_drop_eq (listStarts_iff.mp h4)
  · cases h; exact prefix_drop_eq (listStarts_iff.mp h5)

theorem matchLabel_length {s : List Char} {l : SecLabel} {rest : List Char}
    (h : matchLabel s = some (l, rest)) : rest.length < s.length := by
  rw [matchLabel_inv h]
  cases l <;> simp [labelStrL] <;> omega

theorem splitGo_eq : ∀ (fuel fuel' : Nat) (acc s : List Char),
    s.length ≤ fuel → s.length ≤ fuel' → splitGo fuel acc s = splitGo fuel' acc s := by
  intro fuel
  induction fuel with
  | zero =>
    intro fuel' acc s h h'
    have hs : s = [] := List.eq_nil_of_length_eq_zero (Nat.le_zero.mp h)
    subst hs
    cases fuel' <;> simp [splitGo]
  | succ f ih =>
    intro fuel' acc s h h'
    cases s with
    | nil => cases fuel' <;> simp [splitGo]
    | cons c cs =>
      cases fuel' with
      | zero => simp at h'
      | succ f' =>
        show splitGo (f + 1) acc (c :: cs) = splitGo (f' + 1) acc (c :: cs)
        simp only [splitGo]
        cases hm : matchLabel (c :: cs) with
        | some p =>
          obtain ⟨l, rest⟩ := p
          have hlt := matchLabel_length hm
          simp only [List.length_cons] at h h' hlt
          dsimp only
          rw [ih f' [] rest (by omega) (by omega)]
        | none =>
          simp only [List.length_cons] at h h'
          exact ih f' (c :: acc) cs (by omega) (by omega)

theorem splitFrom_nil (acc : List Char) : splitFrom acc [] = [acc.reverse] := rfl

theorem splitFrom_cons (acc : List Char) (c : Char) (cs : List Char) :
    splitFrom acc (c :: cs) =
      match matchLabel (c :: cs) with
      | some (l, rest) => acc.reverse :: labelStrL l :: splitFrom [] rest
      | none => splitFrom (c :: acc) cs := by
  show splitGo (c :: cs).length acc (c :: cs) = _
  simp only [List.length_cons, splitGo]
  cases hm : matchLabel (c :: cs) with
  | some p =>
    obtain ⟨l, rest⟩ := p
    have hlt := matchLabel_length hm
    simp only [List.length_cons] at hlt
    dsimp only
    rw [splitGo_eq cs.length rest.length [] rest (by omega) (Nat.le_refl _)]
    rfl
  | none => rfl

theorem matchLabel_at (l : SecLabel) (rest : List Char) :
    matchLabel (labelStrL l ++ rest) = some (l, rest) := by
  cases l <;> rfl

theorem splitFrom_label (acc : List Char) (l : SecLabel) (rest : List Char) :
    splitFrom acc (labelStrL l ++ rest) = acc.reverse :: labelStrL l :: splitFrom [] rest := by
  obtain ⟨c, cs, hcs⟩ : ∃ c cs, labelStrL l ++ rest = c :: cs := by
    cases l <;> exact ⟨_, _, rfl⟩
  rw [hcs, splitFrom_cons, ← hcs, matchLabel_at]

theorem labelStrL_chars :
    ∀ l : SecLabel, ∀ c ∈ labelStrL l, c ≠ '\\' ∧ c ≠ '$' ∧ c ≠ ' ' ∧ c ≠ '\n' := by
  intro l
  cases l <;> decide

theorem getLastQ_mem {l : List Char} {c : Char} (h : l.getLast? = some c) : c ∈ l := by
  rw [← List.head?_reverse] at h
  obtain ⟨r, hr⟩ := eq_cons_of_headQ h
  have hc : c ∈ l.reverse := by rw [hr]; simp
  exact List.mem_reverse.mp hc

/-- A well-behaved body fragment between two labels: no markup characters
(so the cleaning pass leaves it alone), no occurrence of a section label
inside it, and a whitespace separator as its last character (so no label
occurrence can straddle its right edge). -/
def goodBody (b : List Char) : Prop :=
  (∀ c ∈ b, c ≠ '\\' ∧ c ≠ '$') ∧ (∀ l : SecLabel, ¬ labelStrL l <:+: b) ∧
    (b.getLast? = some ' ' ∨ b.getLast? = some '\n')

instance goodBodyDec (b : List Char) : Decidable (goodBody b) := by
  unfold goodBody
  exact inferInstance

theorem matchLabel_none_of_good {b : List Char}
    (hb2 : ∀ l : SecLabel, ¬ labelStrL l <:+: b)
    (hb3 : b.getLast? = some ' ' ∨ b.getLast? = some '\n') :
    ∀ b₂ rest, b₂ <:+ b → b₂ ≠ [] → matchLabel (b₂ ++ rest) = none := by
  intro b₂ rest hsuf hne
  cases hm : matchLabel (b₂ ++ rest) with
  | none => rfl
  | some p =>
    obtain ⟨l, r⟩ := p
    exfalso
    have heq := matchLabel_inv hm
    have hpre1 : labelStrL l <+: b₂ ++ rest := ⟨r, heq.symm⟩
    have hpre2 : b₂ <+: b₂ ++ rest := ⟨rest, rfl⟩
    rcases List.prefix_or_prefix_of_prefix hpre1 hpre2 with hA | hB
    · apply hb2 l
      obtain ⟨t, ht⟩ := hA
      obtain ⟨pre, hpre⟩ := hsuf
      exact ⟨pre, t, by rw [List.append_assoc, ht, hpre]⟩
    · obtain ⟨t, ht⟩ := hB
      have hlast : b₂.getLast? = b.getLast? := by
        obtain ⟨pre, hpre⟩ := hsuf
        rw [← hpre]
        exact (List.getLast?_append_of_ne_nil pre hne).symm
      obtain ⟨c, hc, hcsp⟩ : ∃ c, b₂.getLast? = some c ∧ (c = ' ' ∨ c = '\n') := by
        rw [hlast]
        rcases hb3 with h | h
        · exact ⟨' ', h, Or.inl rfl⟩
        · exact ⟨'\n', h, Or.inr rfl⟩
      have hcmem : c ∈ labelStrL l := by
        rw [← ht]
        exact List.mem_append_left t (getLastQ_mem hc)
      have hch := labelStrL_chars l c hcmem
      rcases hcsp with rfl | rfl
      · exact hch.2.2.1 rfl
      · exact hch.2.2.2 rfl

theorem splitFrom_skip : ∀ (b acc rest : List Char),
    (∀ b₂, b₂ <:+ b → b₂ ≠ [] → matchLabel (b₂ ++ rest) = none) →
    splitFrom acc (b ++ rest) = splitFrom (b.reverse ++ acc) rest := by
  intro b
  induction b with
  | nil => intro acc rest _; simp
  | cons c b' ih =>
    intro acc rest h
    have hnone := h (c :: b') ⟨[], rfl⟩ (by simp)
    rw [List.cons_append] at hnone
    rw [List.cons_append, splitFrom_cons, hnone]
    rw [ih (c :: acc) rest (fun b₂ hs hn => h b₂ (hs.trans ⟨[c], rfl⟩) hn)]
    simp

/-- The input text assembled from a list of label/body pairs:
`label₁ body₁ label₂ body₂ …`. -/
def renderChunks : List (SecLabel × List Char) → List Char
  | [] => []
  | p :: ps => labelStrL p.1 ++ p.2 ++ renderChunks ps

/-- The parts that splitting such a text produces, after the leading
empty fragment. -/
def interleave : List (SecLabel × List Char) → List (List Char)
  | [] => []
  | p :: ps => labelStrL p.1 :: p.2 :: interleave ps

theorem splitFrom_render : ∀ (ps : List (SecLabel × List Char)) (acc : List Char),
    (∀ p ∈ ps, goodBody p.2) →
    splitFrom acc (renderChunks ps) = acc.reverse :: interleave ps := by
  intro ps
  induction ps with
  | nil => intro acc _; exact splitFrom_nil acc
  | cons p ps' ih =>
    intro acc h
    obtain ⟨l, b⟩ := p
    have hg : goodBody b := h (l, b) (by simp)
    show splitFrom acc ((labelStrL l ++ b) ++ renderChunks ps') = _
    rw [List.append_assoc, splitFrom_label]
    rw [splitFrom_skip b [] (renderChunks ps')
      (fun b₂ hs hn => matchLabel_none_of_good hg.2.1 hg.2.2 b₂ (renderChunks ps') hs hn)]
    rw [ih (b.reverse ++ []) (fun q hq => h q (by simp [hq]))]
    simp [interleave]

theorem splitChunks_render (ps : List (SecLabel × List Char))
    (h : ∀ p ∈ ps, goodBody p.2) :
    splitChunks (renderChunks ps) = [] :: interleave ps := by
  unfold splitChunks
  rw [splitFrom_render ps [] h]
  rfl

/-! ### Lemmas about the accumulation loop and the final document -/

theorem classify_label (l : SecLabel) : classify (labelStrL l) = some l := by
  cases l <;> rfl

theorem classify_some {part : List Char} {l : SecLabel} (h : classify part = some l) :
    part = labelStrL l := by
  unfold classify at h
  split_ifs at h with h1 h2 h3 h4 h5
  · cases h; exact h1
  · cases h; exact h2
  · cases h; exact h3
  · cases h; exact h4
  · cases h; exact h5

theorem classify_none_of_good {b : List Char}
    (hb : ∀ l : SecLabel, ¬ labelStrL l <:+: b) : classify b = none := by
  cases hc : classify b with
  | none => rfl
  | some l =>
    exfalso
    apply hb l
    rw [classify_some hc]

/-- The body following the last occurrence of a label in a label/body
pair list — the value the overwrite-on-repeat loop ends up keeping. -/
def lastBody (l : SecLabel) : List (SecLabel × List Char) → Option (List Char)
  | [] => none
  | p :: ps =>
    match lastBody l ps with
    | some b => some b
    | none => if p.1 = l then some p.2 else none

theorem setSec_same (d : SecLabel → Option (List Char)) (l : SecLabel) (v : List Char) :
    setSec d l v l = some v := by simp [setSec]

theorem setSec_other (d : SecLabel → Option (List Char)) (l : SecLabel) (v : List Char)
    {l' : SecLabel} (h : l' ≠ l) : setSec d l v l' = d l' := by simp [setSec, h]

theorem foldParts_nil (st : (SecLabel → Option (List Char)) × Option SecLabel) :
    foldParts st [] = st := rfl

theorem foldParts_cons (st : (SecLabel → Option (List Char)) × Option SecLabel)
    (part : List Char) (parts : List (List Char)) :
    foldParts st (part :: parts) = foldParts (stepPart st part) parts := rfl

theorem stepPart_label (st : (SecLabel → Option (List Char)) × Option SecLabel)
    (l : SecLabel) : stepPart st (labelStrL l) = (setSec st.1 l [], some l) := by
  unfold stepPart
  rw [classify_label]

theorem stepPart_body (d : SecLabel → Option (List Char)) (cur : Option SecLabel)
    (l : SecLabel) (b : List Char) (hb : classify b = none) (hcur : cur = some l) :
    stepPart (d, cur) b = (setSec d l (((d l).getD []) ++ pyStrip b ++ ['\n']), some l) := by
  unfold stepPart
  rw [hb, hcur]

theorem foldParts_interleave : ∀ (ps : List (SecLabel × List Char))
    (st : (SecLabel → Option (List Char)) × Option SecLabel),
    (∀ p ∈ ps, classify p.2 = none) →
    ∀ l, (foldParts st (interleave ps)).1 l =
      match lastBody l ps with
      | some b => some (pyStrip b ++ ['\n'])
      | none => st.1 l := by
  intro ps
  induction ps with
  | nil => intro st _ l; rfl
  | cons p ps' ih =>
    intro st h l
    obtain ⟨l₀, b₀⟩ := p
    show (foldParts st (labelStrL l₀ :: b₀ :: interleave ps')).1 l = _
    rw [foldParts_cons, foldParts_cons, stepPart_label,
      stepPart_body _ _ l₀ b₀ (h (l₀, b₀) (by simp)) rfl,
      ih _ (fun q hq => h q (by simp [hq])) l]
    cases hlb : lastBody l ps' with
    | some b => simp [lastBody, hlb]
    | none =>
      simp only [lastBody, hlb]
      by_cases hl : l₀ = l
      · subst hl
        rw [setSec_same, setSec_same]
        simp
      · rw [setSec_other _ _ _ (Ne.symm hl), setSec_other _ _ _ (Ne.symm hl)]
        simp [hl]

theorem splitGo_chars : ∀ (n : Nat) (acc s part : List Char),
    part ∈ splitGo n acc s → ∀ c ∈ part, c ∈ acc ∨ c ∈ s := by
  intro n
  induction n with
  | zero =>
    intro acc s part hp c hc
    cases s with
    | nil =>
      simp only [splitGo, List.mem_singleton] at hp
      subst hp
      exact Or.inl (List.mem_reverse.mp hc)
    | cons c₀ cs =>
      simp only [splitGo, List.mem_singleton] at hp
      subst hp
      rcases List.mem_append.mp hc with h1 | h2
      · exact Or.inl (List.mem_reverse.mp h1)
      · exact Or.inr h2
  | succ n ih =>
    intro acc s part hp c hc
    cases s with
    | nil =>
      simp only [splitGo, List.mem_singleton] at hp
      subst hp
      exact Or.inl (List.mem_reverse.mp hc)
    | cons c₀ cs =>
      simp only [splitGo] at hp
      cases hm : matchLabel (c₀ :: cs) with
      | some p =>
        rw [hm] at hp
        obtain ⟨l, rest⟩ := p
        have hinv := matchLabel_inv hm
        simp only [List.mem_cons] at hp
        rcases hp with h1 | h2 | h3
        · subst h1
          exact Or.inl (List.mem_reverse.mp hc)
        · subst h2
          refine Or.inr ?_
          rw [hinv]
          exact List.mem_append_left rest hc
        · rcases ih [] rest part h3 c hc with h | h
          · simp at h
          · refine Or.inr ?_
            rw [hinv]
            exact List.mem_append_right _ h
      | none =>
        rw [hm] at hp
        rcases ih (c₀ :: acc) cs part hp c hc with h | h
        · rcases List.mem_cons.mp h with h1 | h2
          · exact Or.inr (by simp [h1])
          · exact Or.inl h2
        · exact Or.inr (by simp [h])

theorem splitChunks_chars {s part : List Char} (hp : part ∈ splitChunks s) :
    ∀ c ∈ part, c ∈ s := by
  intro c hc
  rcases splitGo_chars s.length [] s part hp c hc with h | h
  · simp at h
  · exact h

theorem foldParts_chars (P : Char → Prop) (hnl : P '\n') :
    ∀ (parts : List (List Char)) (st : (SecLabel → Option (List Char)) × Option SecLabel),
    (∀ part ∈ parts, ∀ c ∈ part, P c) →
    (∀ l v, st.1 l = some v → ∀ c ∈ v, P c) →
    ∀ l v, (foldParts st parts).1 l = some v → ∀ c ∈ v, P c := by
  intro parts
  induction parts with
  | nil => intro st _ hst; exact hst
  | cons part parts' ih =>
    intro st hp hst
    rw [foldParts_cons]
    apply ih
    · intro q hq
      exact hp q (by simp [hq])
    · intro l v hv c hc
      unfold stepPart at hv
      cases hcl : classify part with
      | some l₀ =>
        rw [hcl] at hv
        simp only at hv
        by_cases he : l = l₀
        · subst he
          rw [setSec_same] at hv
          cases hv
          simp at hc
        · rw [setSec_other _ _ _ he] at hv
          exact hst l v hv c hc
      | none =>
        rw [hcl] at hv
        cases hcur : st.2 with
        | none =>
          rw [hcur] at hv
          exact hst l v hv c hc
        | some l₀ =>
          rw [hcur] at hv
          simp only at hv
          by_cases he : l = l₀
          · subst he
            rw [setSec_same] at hv
            cases hv
            rcases List.mem_append.mp hc with h1 | h2
            · rcases List.mem_append.mp h1 with ha | hb
              · cases hd : st.1 l with
                | none => rw [hd] at ha; simp at ha
                | some v₀ =>
                  rw [hd] at ha
                  exact hst l v₀ hd c ha
              · exact hp part (by simp) c (pyStrip_subset hb)
            · have : c = '\n' := by simpa using h2
              rw [this]
              exact hnl
          · rw [setSec_other _ _ _ he] at hv
            exact hst l v hv c hc

theorem mem_finalize {d : SecLabel → Option (List Char)} {p : SecLabel × List Char}
    (hp : p ∈ finalize d) : ∃ v, d p.1 = some v ∧ p.2 = pyStrip v ∧ pyStrip v ≠ [] := by
  unfold finalize at hp
  rw [List.mem_filterMap] at hp
  obtain ⟨l, _, hl⟩ := hp
  cases hd : d l with
  | none => rw [hd] at hl; cases hl
  | some v =>
    rw [hd] at hl
    by_cases hv : pyStrip v = []
    · simp [hv] at hl
    · simp only [hv, if_neg, ite_false] at hl
      cases hl
      exact ⟨v, hd, rfl, hv⟩

theorem finalize_mem_of (d : SecLabel → Option (List Char)) (l : SecLabel)
    (v : List Char) (hl : d l = some v) (hv : pyStrip v ≠ []) :
    (l, pyStrip v) ∈ finalize d := by
  unfold finalize
  rw [List.mem_filterMap]
  refine ⟨l, by cases l <;> simp [allLabels], ?_⟩
  rw [hl]
  simp [hv]

theorem filterMapKeys_sub (f : SecLabel → Option (SecLabel × List Char))
    (hf : ∀ l p, f l = some p → p.1 = l) :
    ∀ L : List SecLabel, ((L.filterMap f).map Prod.fst).Sublist L := by
  intro L
  induction L with
  | nil => simp
  | cons l L' ih =>
    rw [List.filterMap_cons]
    cases hl : f l with
    | none => exact ih.cons l
    | some p =>
      rw [List.map_cons, hf l p hl]
      exact ih.cons₂ l

theorem finalize_keys_sub (d : SecLabel → Option (List Char)) :
    ((finalize d).map Prod.fst).Sublist allLabels := by
  unfold finalize
  apply filterMapKeys_sub
  intro l p hp
  cases hd : d l with
  | none => rw [hd] at hp; cases hp
  | some v =>
    rw [hd] at hp
    by_cases hv : pyStrip v = []
    · simp [hv] at hp
    · simp only [hv, if_neg, ite_false] at hp
      cases hp
      rfl

theorem mem_keys_finalize_iff (d : SecLabel → Option (List Char)) (l : SecLabel) :
    l ∈ (finalize d).map Prod.fst ↔ ∃ v, d l = some v ∧ pyStrip v ≠ [] := by
  constructor
  · intro h
    rw [List.mem_map] at h
    obtain ⟨p, hp, hfst⟩ := h
    obtain ⟨v, hv1, _, hv3⟩ := mem_finalize hp
    rw [hfst] at hv1
    exact ⟨v, hv1, hv3⟩
  · rintro ⟨v, hv1, hv2⟩
    rw [List.mem_map]
    exact ⟨(l, pyStrip v), finalize_mem_of d l v hv1 hv2, rfl⟩

theorem rendered_chars {ps : List (SecLabel × List Char)}
    (h : ∀ p ∈ ps, goodBody p.2) : ∀ c ∈ renderChunks ps, c ≠ '\\' ∧ c ≠ '$' := by
  induction ps with
  | nil => simp [renderChunks]
  | cons p ps' ih =>
    intro c hc
    unfold renderChunks at hc
    rcases List.mem_append.mp hc with h1 | h2
    · rcases List.mem_append.mp h1 with ha | hb
      · have hch := labelStrL_chars p.1 c ha
        exact ⟨hch.1, hch.2.1⟩
      · exact (h p (by simp)).1 c hb
    · exact ih (fun q hq => h q (by simp [hq])) c h2

/-- The master description of the sectionizer on a label/body rendering:
for every label, the document holds the stripped body of the label's
LAST occurrence (earlier occurrences are overwritten), provided it strips
to something nonempty; labels come out in the fixed display order. -/
theorem parseGresa_render (ps : List (SecLabel × List Char))
    (hgood : ∀ p ∈ ps, goodBody p.2) :
    parseGresa (renderChunks ps) =
      allLabels.filterMap (fun l =>
        match lastBody l ps with
        | some b => if pyStrip b = [] then none else some (l, pyStrip b)
        | none => none) := by
  have hd : gresaAccum (renderChunks ps) = fun l =>
      match lastBody l ps with
      | some b => some (pyStrip b ++ ['\n'])
      | none => none := by
    funext l
    unfold gresaAccum
    rw [clean_eq_self (rendered_chars hgood), splitChunks_render ps hgood,
      foldParts_cons]
    have h0 : stepPart ((fun _ => none), none) [] = ((fun _ => none), none) := rfl
    rw [h0, foldParts_interleave ps _ (fun p hp => classify_none_of_good (hgood p hp).2.1) l]
  unfold parseGresa
  rw [hd]
  unfold finalize
  refine List.filterMap_congr ?_
  intro l _
  dsimp only
  cases hb : lastBody l ps with
  | none => rfl
  | some b =>
    dsimp only
    rw [pyStrip_append_nl b]

/-! ### Lemmas about the validators -/

theorem matchWordAt_iff {u : List Char} {prev : Option Char} {t : List Char} :
    matchWordAt u prev t = true ↔
      ∃ post, t = u ++ post ∧ boundaryAt prev u.head? = true ∧
        boundaryAt u.getLast? post.head? = true := by
  unfold matchWordAt
  simp only [Bool.and_eq_true]
  constructor
  · rintro ⟨⟨h1, h2⟩, h3⟩
    obtain ⟨post, hpost⟩ := listStarts_iff.mp h2
    refine ⟨post, hpost.symm, h1, ?_⟩
    rw [← hpost, List.drop_left] at h3
    exact h3
  · rintro ⟨post, rfl, h1, h3⟩
    refine ⟨⟨h1, listStarts_iff.mpr ⟨post, rfl⟩⟩, ?_⟩
    rw [List.drop_left]
    exact h3

/-- The character to the left of the current scanning position: the last
character already passed, or the starting `prev` when none was. -/
def prevOpt (prev : Option Char) (pre : List Char) : Option Char :=
  match pre.getLast? with
  | some c => some c
  | none => prev

theorem prevOpt_none (pre : List Char) : prevOpt none pre = pre.getLast? := by
  cases h : pre.getLast? <;> simp [prevOpt, h]

theorem prevOpt_cons (prev : Option Char) (c : Char) (pre : List Char) :
    prevOpt prev (c :: pre) = prevOpt (some c) pre := by
  cases pre with
  | nil => rfl
  | cons x xs =>
    obtain ⟨y, hy⟩ : ∃ y, (x :: xs).getLast? = some y := by
      cases h : (x :: xs).getLast? with
      | none => simp at h
      | some y => exact ⟨y, rfl⟩
    simp [prevOpt, List.getLast?_cons_cons, hy]

theorem searchWord_iff : ∀ (t u : List Char) (prev : Option Char),
    searchWord u prev t = true ↔
      ∃ pre post, t = pre ++ u ++ post ∧
        boundaryAt (prevOpt prev pre) u.head? = true ∧
        boundaryAt u.getLast? post.head? = true := by
  intro t
  induction t with
  | nil =>
    intro u prev
    rw [show searchWord u prev [] = matchWordAt u prev [] by
      unfold searchWord; simp]
    rw [matchWordAt_iff]
    constructor
    · rintro ⟨post, hpost, h1, h2⟩
      exact ⟨[], post, by simpa using hpost, by simpa [prevOpt] using h1, h2⟩
    · rintro ⟨pre, post, hsplit, h1, h2⟩
      have hpre : pre = [] := by
        cases pre with
        | nil => rfl
        | cons x xs => simp at hsplit
      subst hpre
      exact ⟨post, by simpa using hsplit, by simpa [prevOpt] using h1, h2⟩
  | cons c ts ih =>
    intro u prev
    rw [show searchWord u prev (c :: ts) =
        (matchWordAt u prev (c :: ts) || searchWord u (some c) ts) from rfl]
    rw [Bool.or_eq_true, matchWordAt_iff, ih u (some c)]
    constructor
    · rintro (⟨post, hpost, h1, h2⟩ | ⟨pre, post, hsplit, h1, h2⟩)
      · exact ⟨[], post, by simpa using hpost, by simpa [prevOpt] using h1, h2⟩
      · refine ⟨c :: pre, post, by simp [hsplit], ?_, h2⟩
        rw [prevOpt_cons]
        exact h1
    · rintro ⟨pre, post, hsplit, h1, h2⟩
      cases pre with
      | nil =>
        refine Or.inl ⟨post, by simpa using hsplit, by simpa [prevOpt] using h1, h2⟩
      | cons c₀ pre' =>
        rw [List.cons_append, List.cons_append] at hsplit
        injection hsplit with hc hts
        subst hc
        refine Or.inr ⟨pre', post, by simp [hts], ?_, h2⟩
        rw [prevOpt_cons] at h1
        exact h1

theorem has_unit_iff (t : List Char) :
    has_unit t = true ↔ ∃ u ∈ unitsList, ∃ pre post, t = pre ++ u ++ post ∧
      boundaryAt pre.getLast? u.head? = true ∧
      boundaryAt u.getLast? post.head? = true := by
  unfold has_unit
  rw [List.any_eq_true]
  constructor
  · rintro ⟨u, hu, hs⟩
    obtain ⟨pre, post, h1, h2, h3⟩ := (searchWord_iff t u none).mp hs
    rw [prevOpt_none] at h2
    exact ⟨u, hu, pre, post, h1, h2, h3⟩
  · rintro ⟨u, hu, pre, post, h1, h2, h3⟩
    refine ⟨u, hu, (searchWord_iff t u none).mpr ⟨pre, post, h1, ?_, h3⟩⟩
    rw [prevOpt_none]
    exact h2

/-! ### Lemmas about `lastBody` -/

theorem lastBody_none_of_not_mem {l : SecLabel} :
    ∀ {ps : List (SecLabel × List Char)}, l ∉ ps.map Prod.fst → lastBody l ps = none := by
  intro ps
  induction ps with
  | nil => intro _; rfl
  | cons p ps' ih =>
    intro h
    simp only [List.map_cons, List.mem_cons] at h
    push_neg at h
    unfold lastBody
    rw [ih h.2]
    simp [Ne.symm h.1]

theorem lastBody_eq_of_nodup {l : SecLabel} {b : List Char} :
    ∀ {ps : List (SecLabel × List Char)}, (ps.map Prod.fst).Nodup →
    (l, b) ∈ ps → lastBody l ps = some b := by
  intro ps
  induction ps with
  | nil => intro _ h; simp at h
  | cons p ps' ih =>
    intro hnd hm
    rw [List.map_cons, List.nodup_cons] at hnd
    rcases List.mem_cons.mp hm with h1 | h2
    · obtain rfl : p = (l, b) := h1.symm
      unfold lastBody
      rw [lastBody_none_of_not_mem hnd.1]
      simp
    · unfold lastBody
      rw [ih hnd.2 h2]

theorem mem_allLabels (l : SecLabel) : l ∈ allLabels := by
  cases l <;> simp [allLabels]

theorem filterMap_keys_eq (f : SecLabel → Option (SecLabel × List Char)) :
    ∀ L : List SecLabel, (∀ l ∈ L, ∃ y, f l = some (l, y)) →
    (L.filterMap f).map Prod.fst = L := by
  intro L
  induction L with
  | nil => simp
  | cons l L' ih =>
    intro h
    obtain ⟨y, hy⟩ := h l (by simp)
    rw [List.filterMap_cons, hy, List.map_cons]
    rw [ih (fun x hx => h x (by simp [hx]))]

/-! ### Claim theorems -/

/-- C1 counterexample: the claim says a repeated label's later fragments
are APPENDED to the earlier body, so the body for "Given:" in
`"Given: one Given: two"` should contain both "one" and "two".  In fact
the loop resets the accumulator at every label occurrence (line 88,
`content_dict[current_sec] = ""`): the resulting body is exactly "two",
and "one" does not occur in it. -/
theorem c1_counterexample :
    parseGresa ("Given: one Given: two".toList) = [(SecLabel.given, "two".toList)] ∧
    ¬ ("one".toList <:+: "two".toList) :=
  ⟨by decide, by decide⟩

/-- C1 (amended): when a label repeats, the later occurrence RESETS that
label's accumulator, so the resulting body keeps only the fragments that
follow the LAST occurrence of the label: on `"Given:" a "Given:" b` with
well-separated bodies, the document is exactly the stripped second body. -/
theorem c1_amended (a b : List Char) (ha : goodBody a) (hb : goodBody b)
    (hbne : pyStrip b ≠ []) :
    parseGresa (renderChunks [(SecLabel.given, a), (SecLabel.given, b)]) =
      [(SecLabel.given, pyStrip b)] := by
  rw [parseGresa_render _ ?hg]
  case hg =>
    intro p hp
    rcases List.mem_cons.mp hp with rfl | hp'
    · exact ha
    · rcases List.mem_cons.mp hp' with rfl | hp''
      · exact hb
      · simp at hp''
  have hf : ∀ l, lastBody l [(SecLabel.given, a), (SecLabel.given, b)] =
      if l = SecLabel.given then some b else none := by
    intro l
    cases l <;> rfl
  simp only [allLabels, List.filterMap_cons, List.filterMap_nil, hf]
  simp [hbne]

/-- C1 witness: the amended theorem applied at concrete bodies. -/
theorem c1_witness :
    parseGresa (renderChunks [(SecLabel.given, " one ".toList), (SecLabel.given, " two ".toList)]) =
      [(SecLabel.given, "two".toList)] := by
  rw [c1_amended (" one ".toList) (" two ".toList) (by decide) (by decide) (by decide)]
  decide

/-- C2 counterexample: the claim quantifies over all texts with the five
labels once, in order, each followed by a NON-EMPTY body, and asserts all
five labels appear in the output.  With the single-space body after
"Given:" (non-empty as a string) the stripped accumulator is empty, so
"Given" is dropped and the document has only four labels. -/
theorem c2_counterexample :
    parseGresa ("Given: Required: b Equation: c Solution: d Answer: e".toList) =
      [(SecLabel.required, "b".toList), (SecLabel.equation, "c".toList),
       (SecLabel.solution, "d".toList), (SecLabel.answer, "e".toList)] ∧
    SecLabel.given ∉
      (parseGresa ("Given: Required: b Equation: c Solution: d Answer: e".toList)).map
        Prod.fst :=
  ⟨by decide, by decide⟩

/-- C2 (amended): for a text assembled from the five labels in ANY order,
each occurring exactly once and followed by a well-separated body (no
markup characters, no embedded label, whitespace-terminated) whose trim is
nonempty, the parse contains all five labels, in the fixed display order
Given, Required, Equation, Solution, Answer, each carrying the trimmed
input body. -/
theorem c2_amended (ps : List (SecLabel × List Char))
    (hgood : ∀ p ∈ ps, goodBody p.2)
    (hne : ∀ p ∈ ps, pyStrip p.2 ≠ [])
    (hperm : List.Perm (ps.map Prod.fst) allLabels) :
    (parseGresa (renderChunks ps)).map Prod.fst = allLabels ∧
    ∀ p ∈ ps, (p.1, pyStrip p.2) ∈ parseGresa (renderChunks ps) := by
  have hnd : (ps.map Prod.fst).Nodup := by
    have hall : allLabels.Nodup := by decide
    exact hperm.symm.nodup hall
  rw [parseGresa_render ps hgood]
  constructor
  · apply filterMap_keys_eq
    intro l hl
    have hlmem : l ∈ ps.map Prod.fst := hperm.symm.mem_iff.mp hl
    obtain ⟨p, hp, hfst⟩ := List.mem_map.mp hlmem
    obtain ⟨pl, pb⟩ := p
    subst hfst
    have hlast : lastBody pl ps = some pb := lastBody_eq_of_nodup hnd hp
    refine ⟨pyStrip pb, ?_⟩
    rw [hlast]
    dsimp only
    rw [if_neg (hne (pl, pb) hp)]
  · intro p hp
    obtain ⟨pl, pb⟩ := p
    have hlast : lastBody pl ps = some pb := lastBody_eq_of_nodup hnd hp
    rw [List.mem_filterMap]
    refine ⟨pl, mem_allLabels pl, ?_⟩
    rw [hlast]
    dsimp only
    rw [if_neg (hne (pl, pb) hp)]

/-- C2 witness: the amended theorem applied with the five labels given in
scrambled input order; the output key order is the fixed display order. -/
theorem c2_witness :
    (parseGresa (renderChunks
        [(SecLabel.answer, " e ".toList), (SecLabel.given, " a ".toList),
         (SecLabel.solution, " d ".toList), (SecLabel.required, " b ".toList),
         (SecLabel.equation, " c ".toList)])).map Prod.fst = allLabels ∧
    (SecLabel.given, pyStrip " a ".toList) ∈
      parseGresa (renderChunks
        [(SecLabel.answer, " e ".toList), (SecLabel.given, " a ".toList),
         (SecLabel.solution, " d ".toList), (SecLabel.required, " b ".toList),
         (SecLabel.equation, " c ".toList)]) :=
  ⟨(c2_amended _ (by decide) (by decide) (by decide)).1,
   (c2_amended _ (by decide) (by decide) (by decide)).2
     (SecLabel.given, " a ".toList) (by decide)⟩

/-- C3: the problem validator agrees with its specification: it rejects
text whose trim is empty or shorter than 15 characters, and otherwise
accepts exactly the texts containing a literal question mark together
with a numeral (equivalently, a decimal digit) or a whole-word occurrence
of a whitelisted unit token (stated as an explicit boundary-checked
decomposition of the text). -/
theorem c3_validate_problem (text : List Char) :
    is_valid_problem text = true ↔ validateProblemSpec text := by
  simp only [is_valid_problem, validateProblemSpec]
  by_cases h1 : pyStrip text = []
  · simp [h1]
  · rw [if_neg h1]
    by_cases h2 : (pyStrip text).length < 15
    · rw [if_pos h2]
      constructor
      · intro h; cases h
      · rintro ⟨-, hlen, -⟩
        omega
    · rw [if_neg h2]
      have h15 : 15 ≤ (pyStrip text).length := Nat.le_of_not_lt h2
      cases hb : ((pyStrip text).contains '?' &&
          (has_number (pyStrip text) || has_unit (pyStrip text))) with
      | false =>
        rw [if_neg (by simp [hb])]
        constructor
        · intro h; cases h
        · rintro ⟨-, -, hq, hrest⟩
          have hcq : (pyStrip text).contains '?' = true := List.elem_iff.mpr hq
          have hor : (has_number (pyStrip text) || has_unit (pyStrip text)) = true := by
            rw [Bool.or_eq_true]
            rcases hrest with hnum | hu
            · refine Or.inl ?_
              unfold has_number
              rw [List.any_eq_true]
              obtain ⟨c, hc, hd⟩ := hnum
              exact ⟨c, hc, hd⟩
            · exact Or.inr ((has_unit_iff _).mpr hu)
          rw [hcq, hor] at hb
          cases hb
      | true =>
        rw [if_pos (by simp [hb])]
        rw [Bool.and_eq_true, Bool.or_eq_true] at hb
        constructor
        · intro _
          refine ⟨h1, h15, List.elem_iff.mp hb.1, ?_⟩
          rcases hb.2 with hnum | hu
          · refine Or.inl ?_
            unfold has_number at hnum
            rw [List.any_eq_true] at hnum
            obtain ⟨c, hc, hd⟩ := hnum
            exact ⟨c, hc, hd⟩
          · exact Or.inr ((has_unit_iff _).mp hu)
        · intro _
          rfl

/-- C4: for every input, the document's keys are a subsequence of the
fixed five-label list (hence drawn from it, without repetition, in the
fixed order); a label is present exactly when its accumulated body strips
to something nonempty; on a text with only "Given:" and "Answer:" the
document has exactly those two keys; and no body in a document is empty
after stripping (indeed every body is already stripped). -/
theorem c4_document_invariants :
    (∀ s : List Char, ((parseGresa s).map Prod.fst).Sublist allLabels) ∧
    (∀ s : List Char, ∀ l : SecLabel,
      l ∈ (parseGresa s).map Prod.fst ↔ ∃ v, gresaAccum s l = some v ∧ pyStrip v ≠ []) ∧
    parseGresa ("Given: 5 kg Answer: 49 N".toList) =
      [(SecLabel.given, "5 kg".toList), (SecLabel.answer, "49 N".toList)] ∧
    (∀ s : List Char, ∀ p ∈ parseGresa s, pyStrip p.2 ≠ []) := by
  refine ⟨fun s => finalize_keys_sub _, fun s l => mem_keys_finalize_iff _ l, by decide, ?_⟩
  intro s p hp
  obtain ⟨v, _, hp2, hv3⟩ := mem_finalize hp
  rw [hp2, pyStrip_idem]
  exact hv3

/-- C4 witness: the membership part of the invariant applied to the
two-section document. -/
theorem c4_witness :
    pyStrip ((SecLabel.given, "5 kg".toList) : SecLabel × List Char).2 ≠ [] :=
  c4_document_invariants.2.2.2 ("Given: 5 kg Answer: 49 N".toList)
    (SecLabel.given, "5 kg".toList) (by decide)

/-- C5: the completion client is a total function of the service outcome
(no exception escapes it): a successful call returns the response text
trimmed, and any raised error is returned as a message string that starts
with the warning marker. -/
theorem c5_ask_openai (t e : List Char) :
    ask_openai (ServiceOutcome.success t) = pyStrip t ∧
    ask_openai (ServiceOutcome.failure e) = warnMark ++ e ∧
    warnMark <+: ask_openai (ServiceOutcome.failure e) :=
  ⟨rfl, rfl, ⟨e, rfl⟩⟩

/-- C6 counterexample: the claim says that on any input containing
`$x$` or `\text\x7bfoo\x7d` no captured body contains those tokens.  The
input below contains `$x$`; the single deletion pass removes the dollars
but thereby splices `\$text\x7bfoo\x7d` into a fresh `\text\x7bfoo\x7d`,
which survives into the captured "Given" body. -/
theorem c6_counterexample :
    ("$x$".toList <:+: "Given: $x$ \\$text\x7bfoo\x7d".toList) ∧
    parseGresa ("Given: $x$ \\$text\x7bfoo\x7d".toList) =
      [(SecLabel.given, "x \\text\x7bfoo\x7d".toList)] ∧
    ("\\text\x7bfoo\x7d".toList <:+: "x \\text\x7bfoo\x7d".toList) :=
  ⟨by decide, by decide, by decide⟩

/-- C6 (amended): the dollar-sign deletion is complete — no captured
section body of any input ever contains a dollar sign, hence never the
token `$x$`.  (The `\text\x7b...\x7d` macro deletion is not stable under
the splicing of adjacent deletions, as the counterexample shows.) -/
theorem c6_amended (s : List Char) :
    ∀ p ∈ parseGresa s, '$' ∉ p.2 ∧ ¬ ("$x$".toList <:+: p.2) := by
  intro p hp
  obtain ⟨v, hv, hp2, _⟩ := mem_finalize hp
  have hchar : ∀ c ∈ v, c ∈ clean s ∨ c = '\n' := by
    refine foldParts_chars (fun c => c ∈ clean s ∨ c = '\n') (Or.inr rfl)
      (splitChunks (clean s)) ((fun _ => none), none) ?_ ?_ p.1 v hv
    · intro part hpart c hc
      exact Or.inl (splitChunks_chars hpart c hc)
    · intro l v₀ h
      cases h
  have hnd : '$' ∉ p.2 := by
    intro hd
    rw [hp2] at hd
    rcases hchar '$' (pyStrip_subset hd) with h | h
    · exact clean_no_dollar s h
    · exact absurd h (by decide)
  refine ⟨hnd, ?_⟩
  rintro ⟨s₁, t₁, hst⟩
  apply hnd
  rw [← hst]
  simp

/-- C6 witness: the amended theorem applied to a concrete input and its
captured body. -/
theorem c6_witness :
    '$' ∉ ((SecLabel.given, "ab".toList) : SecLabel × List Char).2 ∧
    ¬ ("$x$".toList <:+: ((SecLabel.given, "ab".toList) : SecLabel × List Char).2) :=
  c6_amended ("Given: a$b".toList) (SecLabel.given, "ab".toList) (by decide)

/-- C7: the concept validator accepts exactly the inputs whose stripped
text splits into between 1 and 10 whitespace-separated tokens; in
particular it rejects the empty string, accepts a 3-token phrase, and
rejects every 12-token sentence. -/
theorem c7_validate_concept :
    (∀ t : List Char, is_valid_concept t = true ↔
      1 ≤ (pySplit (pyStrip t)).length ∧ (pySplit (pyStrip t)).length ≤ 10) ∧
    is_valid_concept [] = false ∧
    is_valid_concept ("Newton Second Law".toList) = true ∧
    (∀ t : List Char, (pySplit (pyStrip t)).length = 12 → is_valid_concept t = false) := by
  have hmain : ∀ t : List Char, is_valid_concept t = true ↔
      1 ≤ (pySplit (pyStrip t)).length ∧ (pySplit (pyStrip t)).length ≤ 10 := by
    intro t
    simp only [is_valid_concept]
    by_cases hlo : 1 ≤ (pySplit (pyStrip t)).length
    · by_cases hhi : (pySplit (pyStrip t)).length ≤ 10
      · simp [hlo, hhi]
      · simp [hlo, hhi]
    · simp [hlo]
  refine ⟨hmain, by decide, by decide, ?_⟩
  intro t h12
  cases hiv : is_valid_concept t with
  | false => rfl
  | true =>
    exfalso
    obtain ⟨-, h10⟩ := (hmain t).mp hiv
    omega

/-- C7 witness: the 12-word clause applied to a concrete sentence. -/
theorem c7_witness :
    is_valid_concept ("a b c d e f g h i j k l".toList) = false :=
  c7_validate_concept.2.2.2 ("a b c d e f g h i j k l".toList) (by decide)

/-- C8: recording three entries into any starting ledger puts them at the
front, newest first (reverse insertion order), with each entry carrying
the timestamp passed at its insertion and all previously existing entries
unchanged after them. -/
theorem c8_history_newest_first (h : List HistoryEntry)
    (n1 m1 i1 r1 n2 m2 i2 r2 n3 m3 i3 r3 : List Char) :
    listAll (add_to_history n3 m3 i3 r3
        (add_to_history n2 m2 i2 r2 (add_to_history n1 m1 i1 r1 h))) =
      [⟨n3, m3, pyStrip i3, pyStrip r3⟩, ⟨n2, m2, pyStrip i2, pyStrip r2⟩,
       ⟨n1, m1, pyStrip i1, pyStrip r1⟩] ++ h := rfl

/-- C9: when validation fails, neither button handler calls the external
generation service; the ledger is returned unchanged and only the warning
is shown. -/
theorem c9_invalid_no_call (now : List Char) (svc : ServiceOutcome)
    (text : List Char) (h : List HistoryEntry) :
    (is_valid_problem text = false →
      gresa_mode_step now svc text h = ⟨false, h, true⟩) ∧
    (is_valid_concept text = false →
      concept_mode_step now svc text h = ⟨false, h, true⟩) := by
  constructor
  · intro hv
    simp [gresa_mode_step, hv]
  · intro hv
    simp [concept_mode_step, hv]

/-- C9 witness: both handlers on concrete invalid inputs. -/
theorem c9_witness :
    gresa_mode_step [] (ServiceOutcome.success []) ("hi".toList) [] =
      ⟨false, [], true⟩ ∧
    concept_mode_step [] (ServiceOutcome.success []) [] [] = ⟨false, [], true⟩ :=
  ⟨(c9_invalid_no_call [] (ServiceOutcome.success []) ("hi".toList) []).1 (by decide),
   (c9_invalid_no_call [] (ServiceOutcome.success []) [] []).2 (by decide)⟩

/-- C10: the stored entry's input and response are the argument strings
with surrounding whitespace stripped (the head of the new ledger), and
therefore the whole ledger keeps the invariant that every entry's input
and response fields are fixed by stripping. -/
theorem c10_history_trimmed (now mode i r : List Char) (h : List HistoryEntry)
    (hh : ∀ e ∈ h, pyStrip e.input = e.input ∧ pyStrip e.response = e.response) :
    (add_to_history now mode i r h).head? = some ⟨now, mode, pyStrip i, pyStrip r⟩ ∧
    ∀ e ∈ add_to_history now mode i r h,
      pyStrip e.input = e.input ∧ pyStrip e.response = e.response := by
  refine ⟨rfl, ?_⟩
  intro e he
  rcases List.mem_cons.mp he with rfl | hmem
  · exact ⟨pyStrip_idem i, pyStrip_idem r⟩
  · exact hh e hmem

/-- C10 witness: the theorem applied to a concrete insertion into the
empty ledger. -/
theorem c10_witness :
    (add_to_history "ts".toList "GRESA".toList " x ".toList " y ".toList []).head? =
      some ⟨"ts".toList, "GRESA".toList, pyStrip " x ".toList, pyStrip " y ".toList⟩ :=
  (c10_history_trimmed "ts".toList "GRESA".toList " x ".toList " y ".toList []
    (by simp)).1

end Gresa
